import Mathlib

/-!
Verification of the task-graph ordering core (`dask/order.py`) and the
multi-dataframe join planner (`dask/dataframe/multi.py`).

Graph keys are modelled as natural numbers.  The Python dicts
`dependencies` / `dependents` (mappings from a key to a set of keys) are
modelled as association lists, which also fixes the dict iteration order
that the source relies on when listing roots and leaves.
-/

namespace DaskOrder

abbrev Key := Nat

/-- A dict `Key -> set of Key`, as an association list in insertion order. -/
abbrev DepMap := List (Key × List Key)

/-- Dictionary lookup `m[k]`; absent keys give `[]`. -/
def getDep (m : DepMap) (k : Key) : List Key :=
  match m.find? (fun p => p.1 == k) with
  | some p => p.2
  | none => []

/-- Pure recursion over `dependents` realising `ndependents`, with fuel standing
in for the memoised recursion of the source (`_ndependents`):
`nd k = 1 + sum of nd over dependents[k]`. -/
def ndependentsAux (dependents : DepMap) : Nat → Key → Nat
  | 0, _ => 0
  | f + 1, k => 1 + ((getDep dependents k).map (ndependentsAux dependents f)).sum

/-- Source function `ndependents(dependencies, dependents)` of `dask/order.py`. -/
def ndependents (dependents : DepMap) (k : Key) : Nat :=
  ndependentsAux dependents dependents.length k

/-- Pure recursion over `dependencies` realising `child_max`:
leaves receive their score, inner keys add their score to the maximum of
their children's values (`_child_max` in the source). -/
def childMaxAux (dependencies : DepMap) (scores : Key → Nat) : Nat → Key → Nat
  | 0, _ => 0
  | f + 1, k =>
    match getDep dependencies k with
    | [] => scores k
    | ds => (ds.map (childMaxAux dependencies scores f)).foldl Nat.max 0 + scores k

/-- Source function `child_max(dependencies, dependents, scores)` of `dask/order.py`. -/
def child_max (dependencies : DepMap) (scores : Key → Nat) (k : Key) : Nat :=
  childMaxAux dependencies scores dependencies.length k

/-- One evaluation of the `while stack` loop of `dfs`.  The stack's head is
its top (the source pushes and pops at the Python list's end), `seen`
collects visited keys, `result` accumulates `(key, order)` pairs in
assignment order and `i` is the next order value.  The fuel only bounds the
number of loop iterations; `dfs` supplies enough for the loop to run to an
empty stack. -/
def dfsAux (dependencies : DepMap) (keyf : Key → Nat) :
    Nat → List Key → List Key → List (Key × Nat) → Nat → List (Key × Nat)
  | 0, _, _, result, _ => result
  | _ + 1, [], _, result, _ => result
  | f + 1, item :: stack, seen, result, i =>
    if item ∈ seen then
      dfsAux dependencies keyf f stack seen result i
    else
      let seen' := item :: seen
      let ds := (getDep dependencies item).filter (fun c => decide (c ∉ seen'))
      let ds := List.insertionSort (fun a b => keyf a ≤ keyf b) ds
      dfsAux dependencies keyf f (ds.reverse ++ stack) seen' (result ++ [(item, i)]) (i + 1)

/-- The roots of the graph: keys whose dependents set is empty, in dict
iteration order. -/
def rootsOf (dependents : DepMap) : List Key :=
  (dependents.filter (fun p => p.2.isEmpty)).map (·.1)

/-- Fuel sufficient for `dfs`: every root is popped at most once plus once
per push, and pushes are bounded by the total size of the dependency sets. -/
def dfsFuel (dependencies dependents : DepMap) : Nat :=
  (rootsOf dependents).length
    + (dependents.map (fun p => 1 + (getDep dependencies p.1).length)).sum + 1

/-- Source function `dfs(dependencies, dependents, key)` of `dask/order.py`: iterative
depth-first search from the roots, children explored largest key value
first (ascending stable sort then LIFO pops). -/
def dfs (dependencies dependents : DepMap) (keyf : Key → Nat) : List (Key × Nat) :=
  let roots := rootsOf dependents
  dfsAux dependencies keyf (dfsFuel dependencies dependents)
    ((List.insertionSort (fun a b => keyf a ≤ keyf b) roots).reverse) [] [] 0

/-- Source function `order(dsk)` of `dask/order.py`, taking the derived
`dependencies`/`dependents` maps of the graph. -/
def order (dependencies dependents : DepMap) : List (Key × Nat) :=
  dfs dependencies dependents
    (child_max dependencies (ndependents dependents))

/-- Lookup in the priority map produced by `order`/`dfs`. -/
def orderOf (res : List (Key × Nat)) (k : Key) : Option Nat :=
  (res.find? (fun p => p.1 == k)).map (·.2)

/-- Well-formedness of a `(dependencies, dependents)` pair: both dicts have
the same duplicate-free key set, every referenced key exists, and the two
maps are mutually consistent inverses. -/
def graphWF (D T : DepMap) : Prop :=
  (D.map (·.1)).Nodup ∧ (T.map (·.1)).Nodup ∧
  (∀ k ∈ D.map (·.1), k ∈ T.map (·.1)) ∧
  (∀ k ∈ T.map (·.1), k ∈ D.map (·.1)) ∧
  (∀ v ∈ T.map (·.1), ∀ u ∈ getDep D v, u ∈ T.map (·.1)) ∧
  (∀ v ∈ T.map (·.1), ∀ u ∈ getDep T v, u ∈ T.map (·.1)) ∧
  (∀ u ∈ T.map (·.1), ∀ v ∈ T.map (·.1), (u ∈ getDep D v ↔ v ∈ getDep T u))

instance (D T : DepMap) : Decidable (graphWF D T) := by
  unfold graphWF; infer_instance

/-- Reachability: `k` is reachable from `j` by following dependency edges (`j` transitively
depends on `k`), with fuel bounding the path length. -/
def reachableB (D : DepMap) : Nat → Key → Key → Bool
  | 0, j, k => j == k
  | f + 1, j, k => j == k || (getDep D j).any (fun c => reachableB D f c k)

/-- The number of distinct keys of the graph from which `k` is reachable via
dependency edges (`k` itself included). -/
def countReach (D T : DepMap) (k : Key) : Nat :=
  ((T.map (·.1)).filter (fun j => reachableB D T.length j k)).length

/-- The documented four-node graph `{a:1, b:2, c:(f,a), d:(g,b,c)}` with
`a, b, c, d` encoded as `0, 1, 2, 3`: its dependencies map … -/
def exD : DepMap := [(0, []), (1, []), (2, [0]), (3, [1, 2])]

/-- Dependents map of the documented four-node graph. -/
def exT : DepMap := [(0, [2]), (1, [3]), (2, [3]), (3, [])]

/-- The scores `{a:3, b:2, c:2, d:1}` used by the documented `child_max`
example. -/
def exScores : Key → Nat := fun k => [3, 2, 2, 1].getD k 0

/-- Dependencies of a ten-node DAG (keys `0..9`):
`1` depends on `0`; `2` on `0` and `4`; `3` on `1`; `5` on `4`;
`6,7,8,9` on `5`; `0` and `4` are leaves. -/
def cexD : DepMap :=
  [(0, []), (1, [0]), (2, [0, 4]), (3, [1]), (4, []),
   (5, [4]), (6, [5]), (7, [5]), (8, [5]), (9, [5])]

/-- Dependents map of the ten-node DAG. -/
def cexT : DepMap :=
  [(0, [1, 2]), (1, [3]), (2, []), (3, []), (4, [2, 5]),
   (5, [6, 7, 8, 9]), (6, []), (7, []), (8, []), (9, [])]

/-- A rank witnessing acyclicity of the ten-node DAG (strictly decreasing
from a key to each of its dependencies). -/
def cexRank : Key → Nat := fun k => [0, 1, 1, 2, 0, 1, 2, 2, 2, 2].getD k 0

/-- The diamond graph `{a:1, b:(f,a), c:(f,a), d:(g,b,c)}` with `a, b, c, d`
encoded as `0, 1, 2, 3`: dependencies map … -/
def diaD : DepMap := [(0, []), (1, [0]), (2, [0]), (3, [1, 2])]

/-- Dependents map of the diamond graph. -/
def diaT : DepMap := [(0, [1, 2]), (1, [3]), (2, [3]), (3, [])]

/-- Absent keys have no dependency entry. -/
theorem getDep_eq_nil_of_not_mem (m : DepMap) (k : Key)
    (h : k ∉ m.map (·.1)) : getDep m k = [] := by
  unfold getDep
  have : m.find? (fun p => p.1 == k) = none := by
    rw [List.find?_eq_none]
    intro p hp hbeq
    exact h (List.mem_map.mpr ⟨p, hp, by simpa using hbeq⟩)
  rw [this]

/-- Fuel stability: `ndependentsAux` is independent of the fuel once the fuel exceeds an
acyclicity rank of the key. -/
theorem ndependentsAux_stable (T : DepMap) (rank : Key → Nat)
    (hrank : ∀ k ∈ T.map (·.1), ∀ c ∈ getDep T k, rank c < rank k) :
    ∀ f g k, rank k < f → rank k < g →
      ndependentsAux T f k = ndependentsAux T g k := by
  intro f
  induction f with
  | zero => intro g k hf _; omega
  | succ f ih =>
    intro g k hf hg
    obtain ⟨g', rfl⟩ : ∃ g', g = g' + 1 := ⟨g - 1, by omega⟩
    by_cases hmem : k ∈ T.map (·.1)
    · simp only [ndependentsAux]
      congr 2
      apply List.map_congr_left
      intro c hc
      have h1 : rank c < rank k := hrank k hmem c hc
      exact ih g' c (by omega) (by omega)
    · simp only [ndependentsAux, getDep_eq_nil_of_not_mem T k hmem, List.map_nil]

/-- C3 (amended): on an acyclic graph, `ndependents` satisfies the recurrence
`ndependents(k) = 1 + Σ over dependents[k] of ndependents(child)`; in
particular roots (empty dependents) receive the value `1`. -/
theorem ndependents_recurrence (T : DepMap) (rank : Key → Nat)
    (hrank : ∀ k ∈ T.map (·.1), ∀ c ∈ getDep T k, rank c < rank k)
    (k : Key) (hk : rank k < T.length) :
    ndependents T k = 1 + ((getDep T k).map (ndependents T)).sum := by
  unfold ndependents
  by_cases hmem : k ∈ T.map (·.1)
  · rw [ndependentsAux_stable T rank hrank T.length (rank k + 1) k hk (Nat.lt_succ_self _)]
    simp only [ndependentsAux]
    congr 2
    apply List.map_congr_left
    intro c hc
    have h1 : rank c < rank k := hrank k hmem c hc
    exact ndependentsAux_stable T rank hrank (rank k) T.length c (by omega) (by omega)
  · obtain ⟨L, hL⟩ : ∃ L, T.length = L + 1 := ⟨T.length - 1, by omega⟩
    rw [hL]
    simp [ndependentsAux, getDep_eq_nil_of_not_mem T k hmem]

/-- Witness for the amended C3 recurrence on the documented example graph. -/
theorem ndependents_recurrence_witness :
    ndependents exT 0 = 1 + ((getDep exT 0).map (ndependents exT)).sum :=
  ndependents_recurrence exT (fun k => [2, 1, 1, 0].getD k 0) (by decide) 0 (by decide)

/-- C3 (counterexample): on the well-formed acyclic diamond graph
`{a:1, b:(f,a), c:(f,a), d:(g,b,c)}`, `ndependents(a)` is `5`, while only
`4` distinct keys transitively depend on `a` (itself included) — the
recurrence counts dependency paths, not distinct downstream keys. -/
theorem ndependents_ne_distinct_count :
    graphWF diaD diaT
    ∧ (∀ k ∈ diaT.map (·.1), ∀ c ∈ getDep diaT k, [2, 1, 1, 0].getD c 0 < [2, 1, 1, 0].getD k 0)
    ∧ ndependents diaT 0 = 5
    ∧ countReach diaD diaT 0 = 4 := by
  refine ⟨by decide, by decide, by decide, by decide⟩

/-- Fuel stability: `childMaxAux` is independent of the fuel once the fuel exceeds an
acyclicity rank of the key. -/
theorem childMaxAux_stable (D : DepMap) (scores : Key → Nat) (rank : Key → Nat)
    (hrank : ∀ k ∈ D.map (·.1), ∀ c ∈ getDep D k, rank c < rank k) :
    ∀ f g k, rank k < f → rank k < g →
      childMaxAux D scores f k = childMaxAux D scores g k := by
  intro f
  induction f with
  | zero => intro g k hf _; omega
  | succ f ih =>
    intro g k hf hg
    obtain ⟨g', rfl⟩ : ∃ g', g = g' + 1 := ⟨g - 1, by omega⟩
    by_cases hmem : k ∈ D.map (·.1)
    · simp only [childMaxAux]
      cases hd : getDep D k with
      | nil => rfl
      | cons c cs =>
        dsimp only
        congr 2
        apply List.map_congr_left
        intro x hx
        have h1 : rank x < rank k := hrank k hmem x (hd ▸ hx)
        exact ih g' x (by omega) (by omega)
    · simp only [childMaxAux, getDep_eq_nil_of_not_mem D k hmem]

/-- C5: on every acyclic graph with a score map, `child_max` satisfies
`child_max(leaf) = scores[leaf]` for keys with empty dependencies and
`child_max(k) = scores[k] + max over dependencies[k] of child_max(child)`
otherwise; and on `{a:1, b:2, c:(f,a), d:(g,b,c)}` with scores
`{a:3, b:2, c:2, d:1}` it returns `{a:3, b:2, c:5, d:6}` (keys `a..d`
encoded as `0..3`). -/
theorem child_max_spec :
    (∀ (D : DepMap) (scores rank : Key → Nat),
      (∀ k ∈ D.map (·.1), ∀ c ∈ getDep D k, rank c < rank k) →
      ∀ k, rank k < D.length →
        (getDep D k = [] → child_max D scores k = scores k) ∧
        (getDep D k ≠ [] →
          child_max D scores k
            = scores k + ((getDep D k).map (child_max D scores)).foldl Nat.max 0))
    ∧ child_max exD exScores 0 = 3 ∧ child_max exD exScores 1 = 2
    ∧ child_max exD exScores 2 = 5 ∧ child_max exD exScores 3 = 6 := by
  refine ⟨?_, by decide, by decide, by decide, by decide⟩
  intro D scores rank hrank k hk
  unfold child_max
  rw [childMaxAux_stable D scores rank hrank D.length (rank k + 1) k hk (Nat.lt_succ_self _)]
  constructor
  · intro hnil
    simp [childMaxAux, hnil]
  · intro hne
    simp only [childMaxAux]
    cases hd : getDep D k with
    | nil => exact absurd hd hne
    | cons c cs =>
      rw [Nat.add_comm]
      congr 2
      apply List.map_congr_left
      intro x hx
      have hmem : k ∈ D.map (·.1) := by
        by_contra hmem
        rw [getDep_eq_nil_of_not_mem D k hmem] at hd
        exact List.noConfusion hd
      have h1 : rank x < rank k := hrank k hmem x (hd ▸ hx)
      exact childMaxAux_stable D scores rank hrank (rank k) D.length x (by omega) (by omega)

/-- Witness for the general part of C5, at the documented example graph. -/
theorem child_max_spec_witness :
    child_max exD exScores 3
      = exScores 3 + ((getDep exD 3).map (child_max exD exScores)).foldl Nat.max 0 :=
  (child_max_spec.1 exD exScores (fun k => [0, 0, 1, 2].getD k 0) (by decide) 3
    (by decide)).2 (by decide)

/-- The per-key cost of one unseen visit in `dfs`: the pop itself plus the
pushes of its dependencies. -/
def depWeight (D : DepMap) (k : Key) : Nat := 1 + (getDep D k).length

/-- Total remaining visit cost of the keys not yet seen. -/
def phiSum (D : DepMap) : DepMap → List Key → Nat
  | [], _ => 0
  | p :: T, seen => (if p.1 ∈ seen then 0 else depWeight D p.1) + phiSum D T seen

theorem phiSum_nil_seen (D : DepMap) :
    ∀ T : DepMap, phiSum D T [] = (T.map (fun p => 1 + (getDep D p.1).length)).sum := by
  intro T
  induction T with
  | nil => rfl
  | cons p T ih => simp [phiSum, depWeight, ih]

theorem phiSum_mono (D : DepMap) (x : Key) (seen : List Key) :
    ∀ T : DepMap, phiSum D T (x :: seen) ≤ phiSum D T seen := by
  intro T
  induction T with
  | nil => exact Nat.le_refl _
  | cons p T ih =>
    simp only [phiSum]
    by_cases h1 : p.1 ∈ seen
    · rw [if_pos h1, if_pos (List.mem_cons_of_mem _ h1)]
      omega
    · rw [if_neg h1]
      by_cases h2 : p.1 ∈ x :: seen
      · rw [if_pos h2]; omega
      · rw [if_neg h2]; omega

theorem phiSum_cons_of_mem (D : DepMap) (item : Key) (seen : List Key) :
    ∀ T : DepMap, item ∈ T.map (·.1) → item ∉ seen →
      phiSum D T (item :: seen) + depWeight D item ≤ phiSum D T seen := by
  intro T
  induction T with
  | nil => intro h; exact absurd h (List.not_mem_nil _)
  | cons p T ih =>
    intro hmem hns
    simp only [phiSum]
    by_cases h2 : p.1 = item
    · rw [if_pos (h2 ▸ List.mem_cons_self _ _), if_neg (h2 ▸ hns), h2]
      have := phiSum_mono D item seen T
      omega
    · have hmem' : item ∈ T.map (·.1) := by
        rcases List.mem_map.mp hmem with ⟨q, hq, hq1⟩
        rcases List.mem_cons.mp hq with rfl | hq
        · exact absurd hq1 h2
        · exact List.mem_map.mpr ⟨q, hq, hq1⟩
      have hrec := ih hmem' hns
      by_cases h1 : p.1 ∈ seen
      · rw [if_pos h1, if_pos (List.mem_cons_of_mem _ h1)]
        omega
      · rw [if_neg h1, if_neg (by
          intro h
          rcases List.mem_cons.mp h with h | h
          · exact h2 h
          · exact h1 h)]
        omega

/-- Main invariant of the `dfs` loop: with enough fuel the loop extends the
result list with sequentially numbered, pairwise distinct keys, assigns
every key on the stack, assigns all dependencies of every newly assigned
key, and assigns only keys of the graph. -/
theorem dfsAux_spec (D T : DepMap) (keyf : Key → Nat)
    (hclosed : ∀ v ∈ T.map (·.1), ∀ u ∈ getDep D v, u ∈ T.map (·.1)) :
    ∀ (fuel : Nat) (stack seen : List Key) (result : List (Key × Nat)) (i : Nat),
      (∀ x ∈ stack, x ∈ T.map (·.1)) →
      (∀ x ∈ seen, x ∈ result.map Prod.fst) →
      (∀ x ∈ result.map Prod.fst, x ∈ seen) →
      (result.map Prod.fst).Nodup →
      result.map Prod.snd = List.range i →
      stack.length + phiSum D T seen ≤ fuel →
      (∃ tail, dfsAux D keyf fuel stack seen result i = result ++ tail)
      ∧ (dfsAux D keyf fuel stack seen result i).map Prod.snd
          = List.range (dfsAux D keyf fuel stack seen result i).length
      ∧ ((dfsAux D keyf fuel stack seen result i).map Prod.fst).Nodup
      ∧ (∀ x ∈ stack, x ∈ (dfsAux D keyf fuel stack seen result i).map Prod.fst)
      ∧ (∀ v ∈ (dfsAux D keyf fuel stack seen result i).map Prod.fst, v ∉ seen →
          ∀ u ∈ getDep D v, u ∈ (dfsAux D keyf fuel stack seen result i).map Prod.fst)
      ∧ (∀ x ∈ (dfsAux D keyf fuel stack seen result i).map Prod.fst,
          x ∈ T.map (·.1) ∨ x ∈ result.map Prod.fst) := by
  intro fuel
  induction fuel with
  | zero =>
    intro stack seen result i h1 h2 h2' h3 h4 hfuel
    have hstack : stack = [] := List.length_eq_zero.mp (by omega)
    subst hstack
    have hR : dfsAux D keyf 0 [] seen result i = result := rfl
    rw [hR]
    have hlen : result.length = i := by
      have := congrArg List.length h4
      simpa using this
    refine ⟨⟨[], by simp⟩, by rw [h4, hlen], h3, ?_, ?_, ?_⟩
    · intro x hx; exact absurd hx (List.not_mem_nil _)
    · intro v hv hvs; exact absurd (h2' v hv) hvs
    · intro x hx; exact Or.inr hx
  | succ f ih =>
    intro stack seen result i h1 h2 h2' h3 h4 hfuel
    match stack with
    | [] =>
      have hR : dfsAux D keyf (f + 1) [] seen result i = result := rfl
      rw [hR]
      have hlen : result.length = i := by
        have := congrArg List.length h4
        simpa using this
      refine ⟨⟨[], by simp⟩, by rw [h4, hlen], h3, ?_, ?_, ?_⟩
      · intro x hx; exact absurd hx (List.not_mem_nil _)
      · intro v hv hvs; exact absurd (h2' v hv) hvs
      · intro x hx; exact Or.inr hx
    | item :: rest =>
      by_cases hseen : item ∈ seen
      · have hR : dfsAux D keyf (f + 1) (item :: rest) seen result i
            = dfsAux D keyf f rest seen result i := by
          simp only [dfsAux, if_pos hseen]
        rw [hR]
        have hrest : ∀ x ∈ rest, x ∈ T.map (·.1) :=
          fun x hx => h1 x (List.mem_cons_of_mem _ hx)
        have hfuel' : rest.length + phiSum D T seen ≤ f := by
          simp only [List.length_cons] at hfuel; omega
        obtain ⟨c0, c1, c2, c3, c4, c5⟩ :=
          ih rest seen result i hrest h2 h2' h3 h4 hfuel'
        refine ⟨c0, c1, c2, ?_, c4, c5⟩
        intro x hx
        rcases List.mem_cons.mp hx with rfl | hx
        · obtain ⟨tail, htail⟩ := c0
          rw [htail, List.map_append]
          exact List.mem_append_left _ (h2 x hseen)
        · exact c3 x hx
      · -- item is popped for the first time and assigned order `i`
        have hitem : item ∈ T.map (·.1) := h1 item (List.mem_cons_self _ _)
        have hR : dfsAux D keyf (f + 1) (item :: rest) seen result i
            = dfsAux D keyf f
                ((List.insertionSort (fun a b => keyf a ≤ keyf b)
                  ((getDep D item).filter (fun c => decide (c ∉ item :: seen)))).reverse
                  ++ rest)
                (item :: seen) (result ++ [(item, i)]) (i + 1) := by
          simp only [dfsAux, if_neg hseen]
        rw [hR]
        set ds0 := (getDep D item).filter (fun c => decide (c ∉ item :: seen)) with hds0
        set ds := List.insertionSort (fun a b => keyf a ≤ keyf b) ds0 with hds
        have hds_mem : ∀ x, x ∈ ds ↔ x ∈ ds0 := fun x => List.mem_insertionSort _
        have hfst : (result ++ [(item, i)]).map Prod.fst
            = result.map Prod.fst ++ [item] := by simp
        have hnotin : item ∉ result.map Prod.fst := fun h => hseen (h2' item h)
        have h1' : ∀ x ∈ ds.reverse ++ rest, x ∈ T.map (·.1) := by
          intro x hx
          rcases List.mem_append.mp hx with hx | hx
          · have hx0 : x ∈ ds0 := (hds_mem x).mp (List.mem_reverse.mp hx)
            have : x ∈ getDep D item := List.mem_of_mem_filter hx0
            exact hclosed item hitem x this
          · exact h1 x (List.mem_cons_of_mem _ hx)
        have h2n : ∀ x ∈ item :: seen, x ∈ (result ++ [(item, i)]).map Prod.fst := by
          intro x hx
          rw [hfst]
          rcases List.mem_cons.mp hx with rfl | hx
          · exact List.mem_append_right _ (List.mem_singleton_self _)
          · exact List.mem_append_left _ (h2 x hx)
        have h2n' : ∀ x ∈ (result ++ [(item, i)]).map Prod.fst, x ∈ item :: seen := by
          intro x hx
          rw [hfst] at hx
          rcases List.mem_append.mp hx with hx | hx
          · exact List.mem_cons_of_mem _ (h2' x hx)
          · rw [List.mem_singleton.mp hx]; exact List.mem_cons_self _ _
        have h3n : ((result ++ [(item, i)]).map Prod.fst).Nodup := by
          rw [hfst, List.nodup_append]
          exact ⟨h3, List.nodup_singleton _,
            fun a ha hb => hnotin ((List.mem_singleton.mp hb) ▸ ha)⟩
        have h4n : (result ++ [(item, i)]).map Prod.snd = List.range (i + 1) := by
          simp [h4, List.range_succ]
        have hfueln : (ds.reverse ++ rest).length + phiSum D T (item :: seen) ≤ f := by
          have hlen1 : ds.length = ds0.length := List.length_insertionSort _ _
          have hlen2 : ds0.length ≤ (getDep D item).length := List.length_filter_le _ _
          have hphi := phiSum_cons_of_mem D item seen T hitem hseen
          simp only [List.length_append, List.length_reverse, List.length_cons] at hfuel ⊢
          unfold depWeight at hphi
          omega
        obtain ⟨c0, c1, c2, c3, c4, c5⟩ :=
          ih (ds.reverse ++ rest) (item :: seen) (result ++ [(item, i)]) (i + 1)
            h1' h2n h2n' h3n h4n hfueln
        obtain ⟨tail, htail⟩ := c0
        have hmemR : ∀ x ∈ (result ++ [(item, i)]).map Prod.fst,
            x ∈ (dfsAux D keyf f (ds.reverse ++ rest) (item :: seen)
              (result ++ [(item, i)]) (i + 1)).map Prod.fst := by
          intro x hx
          rw [htail, List.map_append]
          exact List.mem_append_left _ hx
        have hitemR : item ∈ (dfsAux D keyf f (ds.reverse ++ rest) (item :: seen)
            (result ++ [(item, i)]) (i + 1)).map Prod.fst := by
          apply hmemR
          rw [hfst]
          exact List.mem_append_right _ (List.mem_singleton_self _)
        refine ⟨⟨(item, i) :: tail, by rw [htail]; simp⟩, c1, c2, ?_, ?_, ?_⟩
        · -- every key of the old stack is assigned
          intro x hx
          rcases List.mem_cons.mp hx with rfl | hx
          · exact hitemR
          · exact c3 x (List.mem_append_right _ hx)
        · -- dependencies of newly assigned keys are assigned
          intro v hv hvseen u hu
          by_cases hvi : v = item
          · rw [hvi] at hu
            by_cases hus : u ∈ item :: seen
            · rcases List.mem_cons.mp hus with rfl | hus
              · exact hitemR
              · apply hmemR
                rw [hfst]
                exact List.mem_append_left _ (h2 u hus)
            · have hu0 : u ∈ ds0 := by
                rw [hds0]
                exact List.mem_filter.mpr ⟨hu, by simpa using hus⟩
              exact c3 u (List.mem_append_left _
                (List.mem_reverse.mpr ((hds_mem u).mpr hu0)))
          · have hvseen' : v ∉ item :: seen := by
              intro h
              rcases List.mem_cons.mp h with h | h
              · exact hvi h
              · exact hvseen h
            exact c4 v hv hvseen' u hu
        · -- only graph keys get assigned
          intro x hx
          rcases c5 x hx with hx | hx
          · exact Or.inl hx
          · rw [hfst] at hx
            rcases List.mem_append.mp hx with hx | hx
            · exact Or.inr hx
            · rw [List.mem_singleton.mp hx]
              exact Or.inl hitem

/-- A key occurring in an association list has a unique first entry, and
`getDep` returns it. -/
theorem getDep_entry (m : DepMap) (k : Key) :
    k ∈ m.map (·.1) → ∃ l, (k, l) ∈ m ∧ getDep m k = l := by
  induction m with
  | nil => intro h; exact absurd h (List.not_mem_nil _)
  | cons p m ih =>
    intro h
    obtain ⟨a, l⟩ := p
    by_cases hp : a = k
    · subst hp
      refine ⟨l, List.mem_cons_self _ _, ?_⟩
      unfold getDep
      rw [List.find?_cons_of_pos _ (by simp)]
    · have hmem : k ∈ a :: m.map (·.1) := by
        rw [List.map_cons] at h; exact h
      have hk : k ∈ m.map (·.1) := by
        rcases List.mem_cons.mp hmem with h' | h'
        · exact absurd h'.symm hp
        · exact h'
      obtain ⟨l', hl', hg⟩ := ih hk
      refine ⟨l', List.mem_cons_of_mem _ hl', ?_⟩
      unfold getDep at hg ⊢
      rw [List.find?_cons_of_neg _ (by simp [hp])]
      exact hg

/-- Totality of `dfs` on a well-formed acyclic graph, for an arbitrary
tie-breaking key function: the produced priority list enumerates exactly
the keys of the graph and the assigned values are exactly
`0 .. |G|-1` in assignment order. -/
theorem dfs_totality (D T : DepMap) (keyf : Key → Nat) (rank : Key → Nat) (B : Nat)
    (hwf : graphWF D T)
    (hrank : ∀ v ∈ T.map (·.1), ∀ u ∈ getDep D v, rank u < rank v)
    (hB : ∀ k ∈ T.map (·.1), rank k < B) :
    List.Perm ((dfs D T keyf).map Prod.fst) (T.map (·.1))
    ∧ (dfs D T keyf).map Prod.snd = List.range (T.map (·.1)).length := by
  obtain ⟨hDnd, hTnd, hDT, hTD, hDcl, hTcl, hcons⟩ := hwf
  have hroots_sub : ∀ x ∈ rootsOf T, x ∈ T.map (·.1) := by
    intro x hx
    rcases List.mem_map.mp hx with ⟨p, hp, rfl⟩
    exact List.mem_map.mpr ⟨p, List.mem_of_mem_filter hp, rfl⟩
  have hstack0_mem : ∀ x,
      x ∈ (List.insertionSort (fun a b => keyf a ≤ keyf b) (rootsOf T)).reverse
        ↔ x ∈ rootsOf T := by
    intro x; rw [List.mem_reverse, List.mem_insertionSort]
  have h1 : ∀ x ∈ (List.insertionSort (fun a b => keyf a ≤ keyf b) (rootsOf T)).reverse,
      x ∈ T.map (·.1) := fun x hx => hroots_sub x ((hstack0_mem x).mp hx)
  have hfuel : (List.insertionSort (fun a b => keyf a ≤ keyf b) (rootsOf T)).reverse.length
      + phiSum D T [] ≤ dfsFuel D T := by
    unfold dfsFuel
    rw [phiSum_nil_seen]
    rw [List.length_reverse, List.length_insertionSort]
    omega
  have hdfs : dfs D T keyf
      = dfsAux D keyf (dfsFuel D T)
          ((List.insertionSort (fun a b => keyf a ≤ keyf b) (rootsOf T)).reverse)
          [] [] 0 := rfl
  obtain ⟨c0, c1, c2, c3, c4, c5⟩ :=
    dfsAux_spec D T keyf hDcl (dfsFuel D T)
      ((List.insertionSort (fun a b => keyf a ≤ keyf b) (rootsOf T)).reverse)
      [] [] 0 h1 (by simp) (by simp) (by simp) (by simp) hfuel
  rw [← hdfs] at c1 c2 c3 c4 c5
  have hsub : ∀ x ∈ (dfs D T keyf).map Prod.fst, x ∈ T.map (·.1) := by
    intro x hx
    rcases c5 x hx with h | h
    · exact h
    · exact absurd h (by simp)
  have hclosureR : ∀ v ∈ (dfs D T keyf).map Prod.fst,
      ∀ u ∈ getDep D v, u ∈ (dfs D T keyf).map Prod.fst :=
    fun v hv => c4 v hv (by simp)
  have hallmem : ∀ j k, k ∈ T.map (·.1) → B - rank k ≤ j →
      k ∈ (dfs D T keyf).map Prod.fst := by
    intro j
    induction j with
    | zero => intro k hk hj; exact absurd (hB k hk) (by omega)
    | succ j ihj =>
      intro k hk hj
      obtain ⟨l, hl, hget⟩ := getDep_entry T k hk
      cases l with
      | nil =>
        apply c3
        refine (hstack0_mem k).mpr ?_
        exact List.mem_map.mpr ⟨(k, []), List.mem_filter.mpr ⟨hl, rfl⟩, rfl⟩
      | cons c cs =>
        have hc : c ∈ getDep T k := by rw [hget]; exact List.mem_cons_self _ _
        have hcK : c ∈ T.map (·.1) := hTcl k hk c hc
        have hkD : k ∈ getDep D c := (hcons k hk c hcK).mpr hc
        have hrk : rank k < rank c := hrank c hcK k hkD
        have hj' : B - rank c ≤ j := by have := hB c hcK; omega
        exact hclosureR c (ihj c hcK hj') k hkD
  have hperm : List.Perm ((dfs D T keyf).map Prod.fst) (T.map (·.1)) :=
    (List.perm_ext_iff_of_nodup c2 hTnd).mpr
      (fun a => ⟨hsub a, fun ha => hallmem B a ha (by omega)⟩)
  refine ⟨hperm, ?_⟩
  rw [c1]
  congr 1
  rw [← List.length_map (dfs D T keyf) Prod.fst]
  exact hperm.length_eq

/-- C2: for every well-formed acyclic graph (`graphWF` plus a rank function
strictly decreasing along dependency edges), `order` returns exactly one
entry per key of the graph, and the set of assigned values is exactly
`0 .. |G|-1`, with no gaps and no repeats. -/
theorem order_totality (D T : DepMap) (rank : Key → Nat) (B : Nat)
    (hwf : graphWF D T)
    (hrank : ∀ v ∈ T.map (·.1), ∀ u ∈ getDep D v, rank u < rank v)
    (hB : ∀ k ∈ T.map (·.1), rank k < B) :
    List.Perm ((order D T).map Prod.fst) (T.map (·.1))
    ∧ (order D T).map Prod.snd = List.range (T.map (·.1)).length :=
  dfs_totality D T (child_max D (ndependents T)) rank B hwf hrank hB

/-- Witness for C2 on the documented four-node example graph. -/
theorem order_totality_witness :
    List.Perm ((order exD exT).map Prod.fst) (exT.map (·.1))
    ∧ (order exD exT).map Prod.snd = List.range (exT.map (·.1)).length :=
  order_totality exD exT (fun k => [0, 0, 1, 2].getD k 0) 4
    (by decide) (by decide) (by decide)

/-- C6: on the graph `{a:1, b:2, c:(f,a), d:(g,b,c)}` (keys `a..d` encoded
as `0..3`), `order` returns exactly the priority map
`{d:0, c:1, a:2, b:3}`. -/
theorem order_concrete_example :
    order exD exT = [(3, 0), (2, 1), (0, 2), (1, 3)] := by decide

/-- C1 (violation): the ten-node DAG `cexD`/`cexT` is well formed and
acyclic, `0` is a dependency of `1`, yet `order` assigns `1 ↦ 9` and
`0 ↦ 7`, so the edge `0 ∈ dependencies[1]` gets `order[1] > order[0]`,
contradicting the toposort property claimed by the spec and by the
docstring of `order`. -/
theorem order_toposort_violation :
    graphWF cexD cexT
    ∧ (∀ v ∈ cexT.map (·.1), ∀ u ∈ getDep cexD v, cexRank u < cexRank v)
    ∧ 0 ∈ getDep cexD 1
    ∧ orderOf (order cexD cexT) 1 = some 9
    ∧ orderOf (order cexD cexT) 0 = some 7 := by
  refine ⟨by decide, by decide, by decide, by decide, by decide⟩

end DaskOrder

namespace DaskMulti

/-- A block key `(name, index)` of a partitioned table. -/
abbrev BKey := Nat × Nat

/-- An argument to `align_partitions`: a partitioned frame (`_Frame`,
modelled by its name and its list of division boundaries) or a `Scalar`
(which has no divisions). -/
inductive AArg where
  | frame (name : Nat) (divisions : List Int)
  | scalar
deriving DecidableEq, Repr

/-- Test `isinstance(df, _Frame)`. -/
def AArg.isFrame : AArg → Bool
  | .frame _ _ => true
  | .scalar => false

/-- Attribute `df.divisions`. -/
def AArg.divisions : AArg → List Int
  | .frame _ d => d
  | .scalar => []

/-- Computes `unique(merge_sorted(...))` over the (individually sorted) divisions
lists: `toolz.merge_sorted` on sorted inputs returns the sorted merge of
all elements, realised here with a stable sort of the concatenation. -/
def mergeSortedAll (ls : List (List Int)) : List Int :=
  List.insertionSort (fun a b => a ≤ b) ls.flatten

/-- Model of `toolz.unique` with its seen-set: keeps the first occurrence of each
value, in order. -/
def uniqueAux : List Int → List Int → List Int
  | [], _ => []
  | x :: xs, seen =>
    if x ∈ seen then uniqueAux xs seen else x :: uniqueAux xs (x :: seen)

def uniqueSeen (l : List Int) : List Int := uniqueAux l []

/-- Modelled from the spec: `repartition(df, divisions, force=True)` lives
in `dask/dataframe/core.py`, which is not among the sources; its contract
is that the output frame's divisions equal the requested divisions. -/
def repartition (df : AArg) (divisions : List Int) : AArg :=
  match df with
  | .frame n _ => .frame n divisions
  | .scalar => .scalar

/-- The body of the `for i, df in enumerate(dfs2)` loop of
`align_partitions`, for one division boundary `d`: each frame consults its
own walking index `j` and emits its block `(name, j)` exactly when its
`j`-th division boundary equals `d` (advancing `j`); scalars always emit
null.  Returns the row of optional block keys and the updated indices. -/
def alignRow : List AArg → List Nat → Int → List (Option BKey) × List Nat
  | df :: dfs, j :: inds, d =>
    let rest := alignRow dfs inds d
    match df with
    | .frame name divs =>
      if j < divs.length - 1 ∧ divs.getD j 0 = d then
        ((some (name, j)) :: rest.1, (j + 1) :: rest.2)
      else (none :: rest.1, j :: rest.2)
    | .scalar => (none :: rest.1, j :: rest.2)
  | _, _, _ => ([], [])

/-- One iteration of the `for d in divisions[:-1]` loop: append the new
row and carry the updated walking indices. -/
def alignStep (dfs2 : List AArg) (acc : List (List (Option BKey)) × List Nat)
    (d : Int) : List (List (Option BKey)) × List Nat :=
  (acc.1 ++ [(alignRow dfs2 acc.2 d).1], (alignRow dfs2 acc.2 d).2)

/-- Source function `align_partitions(*dfs)` of `dask/dataframe/multi.py`.  Returns
`none` where the source raises `ValueError` (only when called with an
empty argument list). -/
def align_partitions (dfs : List AArg) :
    Option (List AArg × List Int × List (List (Option BKey))) :=
  if dfs.length = 0 then none
  else
    let dfs1 := dfs.filter (fun df => df.isFrame)
    let divisions := uniqueSeen (mergeSortedAll (dfs1.map (fun df => df.divisions)))
    let dfs2 := dfs.map (fun df => if df.isFrame then repartition df divisions else df)
    let out := divisions.dropLast.foldl (alignStep dfs2) ([], List.replicate dfs.length 0)
    some (dfs2, divisions, out.1)

/-- If the frame at position `t` has its `m`-th boundary equal to `d` (and
`m` is not the last boundary), the row built by `alignRow` holds its block
`(name, m)` at position `t` and its walking index advances to `m + 1`. -/
theorem alignRow_get (d : Int) :
    ∀ (dfs2 : List AArg) (inds : List Nat) (t name : Nat) (D : List Int) (m : Nat),
      dfs2[t]? = some (AArg.frame name D) → inds[t]? = some m →
      m < D.length - 1 → D.getD m 0 = d →
      (alignRow dfs2 inds d).1[t]? = some (some (name, m))
      ∧ (alignRow dfs2 inds d).2[t]? = some (m + 1) := by
  intro dfs2
  induction dfs2 with
  | nil => intro inds t name D m ht; simp at ht
  | cons df dfs ih =>
    intro inds t name D m ht hi hlt hget
    cases inds with
    | nil => simp at hi
    | cons j inds =>
      cases t with
      | zero =>
        have hdf : df = AArg.frame name D := by simpa using ht
        have hj : j = m := by simpa using hi
        subst hdf; subst hj
        have hc := And.intro hlt hget
        simp only [alignRow]
        rw [if_pos hc]
        exact ⟨by simp, by simp⟩
      | succ t =>
        have ht' : dfs[t]? = some (AArg.frame name D) := by simpa using ht
        have hi' : inds[t]? = some m := by simpa using hi
        obtain ⟨r1, r2⟩ := ih inds t name D m ht' hi' hlt hget
        cases df with
        | scalar =>
          simp only [alignRow]
          exact ⟨by simpa using r1, by simpa using r2⟩
        | frame nm dv =>
          simp only [alignRow]
          by_cases hc : j < dv.length - 1 ∧ dv.getD j 0 = d
          · rw [if_pos hc]
            exact ⟨by simpa using r1, by simpa using r2⟩
          · rw [if_neg hc]
            exact ⟨by simpa using r1, by simpa using r2⟩

/-- Invariant of the `for d in divisions[:-1]` loop: if position `t` holds
a frame whose divisions are the full merged list `D` and its walking index
has kept pace with the loop, then every produced row contains a non-null
block key. -/
theorem alignFold_spec (dfs2 : List AArg) (t name : Nat) (D : List Int)
    (ht : dfs2[t]? = some (AArg.frame name D)) :
    ∀ (ds : List Int) (m : Nat) (acc : List (List (Option BKey))) (inds : List Nat),
      inds[t]? = some m → ds = D.dropLast.drop m →
      (∀ row ∈ acc, ∃ o ∈ row, o.isSome = true) →
      ∀ row ∈ (ds.foldl (alignStep dfs2) (acc, inds)).1,
        ∃ o ∈ row, o.isSome = true := by
  intro ds
  induction ds with
  | nil => intro m acc inds _ _ hacc; simpa using hacc
  | cons d ds ih =>
    intro m acc inds hi hds hacc
    have hgot : D.dropLast[m]? = some d := by
      have h0 : (D.dropLast.drop m)[0]? = some d := by rw [← hds]; simp
      rw [List.getElem?_drop] at h0
      simpa using h0
    have hmlt : m < D.dropLast.length := by
      rcases List.getElem?_eq_some.mp hgot with ⟨h, _⟩
      exact h
    have hlt : m < D.length - 1 := by rwa [List.length_dropLast] at hmlt
    have hDm : D[m]? = some d := by
      rwa [List.getElem?_dropLast, if_pos hlt] at hgot
    have hgetD : D.getD m 0 = d := by
      rw [List.getD_eq_getElem?_getD, hDm]; rfl
    obtain ⟨r1, r2⟩ := alignRow_get d dfs2 inds t name D m ht hi hlt hgetD
    have hds' : ds = D.dropLast.drop (m + 1) := by
      have h1 := List.drop_drop 1 m D.dropLast
      rw [← hds] at h1
      simpa using h1
    have hstep : (d :: ds).foldl (alignStep dfs2) (acc, inds)
        = ds.foldl (alignStep dfs2)
            (acc ++ [(alignRow dfs2 inds d).1], (alignRow dfs2 inds d).2) := rfl
    rw [hstep]
    apply ih (m + 1) _ _ r2 hds'
    intro row hrow
    rcases List.mem_append.mp hrow with h | h
    · exact hacc row h
    · rw [List.mem_singleton.mp h]
      refine ⟨some (name, m), ?_, rfl⟩
      rw [← List.get?_eq_getElem?] at r1
      exact List.get?_mem r1

/-- C4: whenever `align_partitions` is called with at least one
partitioned frame among its arguments, it succeeds, and every row of the
returned `parts` list contains at least one non-null block key. -/
theorem align_partitions_coverage (dfs : List AArg) (t name : Nat) (divs : List Int)
    (ht : dfs[t]? = some (AArg.frame name divs)) :
    ∃ out, align_partitions dfs = some out
      ∧ ∀ row ∈ out.2.2, ∃ o ∈ row, o.isSome = true := by
  have htlt : t < dfs.length := by
    rcases List.getElem?_eq_some.mp ht with ⟨h, _⟩
    exact h
  have hne : ¬ dfs.length = 0 := by omega
  unfold align_partitions
  rw [if_neg hne]
  refine ⟨_, rfl, ?_⟩
  dsimp only
  set D := uniqueSeen (mergeSortedAll
    ((dfs.filter (fun df => df.isFrame)).map (fun df => df.divisions))) with hD
  have ht2 : (dfs.map (fun df => if df.isFrame then repartition df D else df))[t]?
      = some (AArg.frame name D) := by
    rw [List.getElem?_map, ht]
    rfl
  have hi0 : (List.replicate dfs.length (0 : Nat))[t]? = some 0 := by
    simp [List.getElem?_replicate, htlt]
  exact alignFold_spec _ t name D ht2 D.dropLast 0 [] _ hi0 (by simp) (by simp)

/-- Witness for C4: one frame and one scalar; the frame covers every
division interval. -/
theorem align_partitions_coverage_witness :
    ∃ out, align_partitions [AArg.frame 5 [1, 3], AArg.scalar] = some out
      ∧ ∀ row ∈ out.2.2, ∃ o ∈ row, o.isSome = true :=
  align_partitions_coverage [AArg.frame 5 [1, 3], AArg.scalar] 0 5 [1, 3] rfl

/-- C9 (violation): `align_partitions` raises only when called with zero
arguments; called with a single `Scalar` — so with no partitioned frame
among its arguments — it does not fail and instead returns its argument
with empty divisions and an empty parts list. -/
theorem align_partitions_no_tables :
    align_partitions [] = none
    ∧ align_partitions [AArg.scalar] = some ([AArg.scalar], [], []) := by
  constructor <;> rfl

/-- The per-division rows of optional block keys handed to `require`. -/
abbrev Parts := List (List (Option BKey))

/-- Python `min` on a non-empty list (the model returns `0` on `[]`, where
the source raises `ValueError`). -/
def pyMin : List Nat → Nat
  | [] => 0
  | x :: xs => xs.foldl min x

/-- Python `max` on a non-empty list (the model returns `0` on `[]`). -/
def pyMax : List Nat → Nat
  | [] => 0
  | x :: xs => xs.foldl max x

/-- Python slice `l[a:b]` for natural bounds. -/
def pySlice {α : Type} (l : List α) (a b : Nat) : List α :=
  (l.drop a).take (b - a)

/-- Computes `[j for j, p in enumerate(parts) if p[i] is not None]`. -/
def presentIdx (parts : Parts) (i : Nat) : List Nat :=
  ((parts.enum).filter (fun p => (p.2.getD i none).isSome)).map (·.1)

/-- The body of the `for i in required` loop of `require`. -/
def requireStep (dp : List Int × Parts) (i : Nat) : List Int × Parts :=
  let present := presentIdx dp.2 i
  (pySlice dp.1 (pyMin present) (pyMax present + 2),
   pySlice dp.2 (pyMin present) (pyMax present + 1))

/-- Source function `require(divisions, parts, required)` of `dask/dataframe/multi.py`. -/
def require (divisions : List Int) (parts : Parts) (required : List Nat) :
    List Int × Parts :=
  required.foldl requireStep (divisions, parts)

/-- The parts of the `require` doctest, with tables `a, b` named `0, 1`:
`[(A0, ∅), (A1, B0), (A2, B1), (∅, B2)]`. -/
def exParts : Parts :=
  [[some (0, 0), none],
   [some (0, 1), some (1, 0)],
   [some (0, 2), some (1, 1)],
   [none, some (1, 2)]]

theorem foldlMin_spec :
    ∀ (ys : List Nat) (y : Nat),
      ys.foldl min y ∈ y :: ys ∧ ∀ b ∈ y :: ys, ys.foldl min y ≤ b := by
  intro ys
  induction ys with
  | nil =>
    intro y
    refine ⟨List.mem_cons_self _ _, ?_⟩
    intro b hb
    rw [List.mem_singleton.mp hb]
    exact Nat.le_refl _
  | cons z ys ih =>
    intro y
    obtain ⟨hmem, hle⟩ := ih (min y z)
    constructor
    · rcases List.mem_cons.mp hmem with h | h
      · rw [List.foldl_cons, h]
        by_cases hyz : y ≤ z
        · rw [min_eq_left hyz]; exact List.mem_cons_self _ _
        · rw [min_eq_right (le_of_not_le hyz)]
          exact List.mem_cons_of_mem _ (List.mem_cons_self _ _)
      · exact List.mem_cons_of_mem _ (List.mem_cons_of_mem _ h)
    · intro b hb
      rw [List.foldl_cons]
      rcases List.mem_cons.mp hb with rfl | hb
      · exact Nat.le_trans (hle _ (List.mem_cons_self _ _)) (min_le_left _ _)
      · rcases List.mem_cons.mp hb with rfl | hb
        · exact Nat.le_trans (hle _ (List.mem_cons_self _ _)) (min_le_right _ _)
        · exact hle b (List.mem_cons_of_mem _ hb)

theorem foldlMax_spec :
    ∀ (ys : List Nat) (y : Nat),
      ys.foldl max y ∈ y :: ys ∧ ∀ b ∈ y :: ys, b ≤ ys.foldl max y := by
  intro ys
  induction ys with
  | nil =>
    intro y
    refine ⟨List.mem_cons_self _ _, ?_⟩
    intro b hb
    rw [List.mem_singleton.mp hb]
    exact Nat.le_refl _
  | cons z ys ih =>
    intro y
    obtain ⟨hmem, hle⟩ := ih (max y z)
    constructor
    · rcases List.mem_cons.mp hmem with h | h
      · rw [List.foldl_cons, h]
        by_cases hyz : y ≤ z
        · rw [max_eq_right hyz]
          exact List.mem_cons_of_mem _ (List.mem_cons_self _ _)
        · rw [max_eq_left (le_of_not_le hyz)]; exact List.mem_cons_self _ _
      · exact List.mem_cons_of_mem _ (List.mem_cons_of_mem _ h)
    · intro b hb
      rw [List.foldl_cons]
      rcases List.mem_cons.mp hb with rfl | hb
      · exact Nat.le_trans (le_max_left _ _) (hle _ (List.mem_cons_self _ _))
      · rcases List.mem_cons.mp hb with rfl | hb
        · exact Nat.le_trans (le_max_right _ _) (hle _ (List.mem_cons_self _ _))
        · exact hle b (List.mem_cons_of_mem _ hb)

/-- Evaluation of `pyMin`: it returns the least element of a non-empty list. -/
theorem pyMin_eq (l : List Nat) (lo : Nat) (hmem : lo ∈ l)
    (hle : ∀ b ∈ l, lo ≤ b) : pyMin l = lo := by
  cases l with
  | nil => exact absurd hmem (List.not_mem_nil _)
  | cons y ys =>
    obtain ⟨hm, hb⟩ := foldlMin_spec ys y
    exact Nat.le_antisymm (hb lo hmem) (hle _ hm)

/-- Evaluation of `pyMax`: it returns the greatest element of a non-empty list. -/
theorem pyMax_eq (l : List Nat) (hi : Nat) (hmem : hi ∈ l)
    (hle : ∀ b ∈ l, b ≤ hi) : pyMax l = hi := by
  cases l with
  | nil => exact absurd hmem (List.not_mem_nil _)
  | cons y ys =>
    obtain ⟨hm, hb⟩ := foldlMax_spec ys y
    exact Nat.le_antisymm (hle _ hm) (hb hi hmem)

/-- C7: `require` applies its mask indices in sequence (so several indices
intersect the restrictions); one index `i` whose set of present positions
has least element `lo` and greatest element `hi` keeps exactly the part
rows `lo..hi` and the division boundaries `lo..hi+1`; and on
`divisions=[1,3,5,7,9]`, `parts=[(A0,∅),(A1,B0),(A2,B1),(∅,B2)]`, mask
`{0}` gives `(1,3,5,7)` with the first three rows, while mask `{0,1}`
gives `(3,5,7)` with the middle two rows. -/
theorem require_spec :
    (∀ (divisions : List Int) (parts : Parts) (i : Nat) (rest : List Nat),
      require divisions parts (i :: rest)
        = require (requireStep (divisions, parts) i).1
            (requireStep (divisions, parts) i).2 rest)
    ∧ (∀ (divisions : List Int) (parts : Parts) (i lo hi : Nat),
        lo ∈ presentIdx parts i → (∀ j ∈ presentIdx parts i, lo ≤ j) →
        hi ∈ presentIdx parts i → (∀ j ∈ presentIdx parts i, j ≤ hi) →
        requireStep (divisions, parts) i
          = (pySlice divisions lo (hi + 2), pySlice parts lo (hi + 1)))
    ∧ require [1, 3, 5, 7, 9] exParts [0]
        = ([1, 3, 5, 7],
           [[some (0, 0), none], [some (0, 1), some (1, 0)], [some (0, 2), some (1, 1)]])
    ∧ require [1, 3, 5, 7, 9] exParts [0, 1]
        = ([3, 5, 7], [[some (0, 1), some (1, 0)], [some (0, 2), some (1, 1)]]) := by
  refine ⟨?_, ?_, by decide, by decide⟩
  · intro divisions parts i rest
    rfl
  · intro divisions parts i lo hi hlo1 hlo2 hhi1 hhi2
    unfold requireStep
    dsimp only
    rw [pyMin_eq _ lo hlo1 hlo2, pyMax_eq _ hi hhi1 hhi2]

/-- Witness for the single-index characterisation in C7, on the doctest
input with mask index `0` (present positions `0..2`). -/
theorem require_spec_witness :
    requireStep ([1, 3, 5, 7, 9], exParts) 0
      = (pySlice [1, 3, 5, 7, 9] 0 (2 + 2), pySlice exParts 0 (2 + 1)) :=
  require_spec.2.1 [1, 3, 5, 7, 9] exParts 0 0 2
    (by decide) (by decide) (by decide) (by decide)

/-- A join kind. -/
inductive How where
  | inner | left | right | outer
deriving DecidableEq, Repr

/-- A dask frame as seen by `hash_join` and `merge`: a name, a column
list, and divisions whose boundaries may be null. -/
structure HFrame where
  name : Nat
  columns : List Nat
  divisions : List (Option Int)
deriving DecidableEq, Repr

/-- Property `_Frame.npartitions`: `len(divisions) - 1`. -/
def HFrame.npartitions (f : HFrame) : Nat := f.divisions.length - 1

/-- A join key argument of `hash_join`: a column, a list of columns, or
the frame's index (`isinstance(on, Index)` in the source). -/
inductive JKey where
  | col (c : Nat)
  | cols (cs : List Nat)
  | index
deriving DecidableEq, Repr

/-- Modelled from the spec: `shuffle(df, on, npartitions)` lives in
`dask/dataframe/shuffle.py`, which is not among the sources; its contract
is that the output has exactly `npartitions` blocks and all-null
divisions. -/
def shuffle (f : HFrame) (_key : JKey) (np : Nat) : HFrame :=
  { name := f.name, columns := f.columns,
    divisions := List.replicate (np + 1) none }

/-- Source function `hash_join(lhs, left_on, rhs, right_on, how, npartitions, suffixes)`
from `dask/dataframe/multi.py`.  The external in-memory kernel
(`pd.merge` on empty frames, which fixes the output columns) is passed in
as `mergeCols`; the task dictionary consists of external kernel calls and
is not modelled — the result records the planner-visible output frame. -/
def hash_join
    (mergeCols : How → Option (List Nat) → Option (List Nat) → Bool → Bool
      → Nat × Nat → List Nat → List Nat → List Nat)
    (lhs : HFrame) (left_on : JKey) (rhs : HFrame) (right_on : JKey)
    (how : How) (npartitions? : Option Nat) (suffixes : Nat × Nat) : HFrame :=
  let npartitions := match npartitions? with
    | none => max lhs.npartitions rhs.npartitions
    | some n => n
  let lhs2 := shuffle lhs left_on npartitions
  let _rhs2 := shuffle rhs right_on npartitions
  let lresolved : Option (List Nat) × Bool := match left_on with
    | .index => (none, true)
    | .col c => (some [c], false)
    | .cols cs => (some cs, false)
  let rresolved : Option (List Nat) × Bool := match right_on with
    | .index => (none, true)
    | .col c => (some [c], false)
    | .cols cs => (some cs, false)
  { name := lhs2.name,
    columns := mergeCols how lresolved.1 rresolved.1 lresolved.2 rresolved.2
      suffixes lhs.columns rhs.columns,
    divisions := List.replicate (npartitions + 1) none }

/-- C8: when `npartitions` is not supplied, `hash_join` uses
`max(lhs.npartitions, rhs.npartitions)`, and the returned frame's
divisions are `npartitions + 1` nulls, regardless of the inputs'
divisions. -/
theorem hash_join_divisions
    (mergeCols : How → Option (List Nat) → Option (List Nat) → Bool → Bool
      → Nat × Nat → List Nat → List Nat → List Nat)
    (lhs rhs : HFrame) (left_on right_on : JKey) (how : How)
    (suffixes : Nat × Nat) :
    (hash_join mergeCols lhs left_on rhs right_on how none suffixes).divisions
      = List.replicate (max lhs.npartitions rhs.npartitions + 1) none
    ∧ ∀ n,
      (hash_join mergeCols lhs left_on rhs right_on how (some n) suffixes).divisions
        = List.replicate (n + 1) none :=
  ⟨rfl, fun _ => rfl⟩

/-- A key-selection argument of `merge` (`on`, `left_on`, `right_on`):
`none` models Python `None`, and a (possibly empty) column list models the
rest.  Python truthiness makes both `None` and `[]` falsy. -/
abbrev KeyArg := Option (List Nat)

/-- Python truthiness of a key argument. -/
def truthy : KeyArg → Bool
  | none => false
  | some l => !l.isEmpty

/-- An operand of `merge`: an in-memory (pandas) frame of abstract type
`PD`, or a dask frame. -/
inductive MOperand (PD : Type) where
  | pd (x : PD)
  | dd (f : HFrame)

/-- Attribute `operand.columns`, reading in-memory columns through `colsOf`. -/
def MOperand.columns {PD : Type} (colsOf : PD → List Nat) :
    MOperand PD → List Nat
  | .pd x => colsOf x
  | .dd f => f.columns

/-- The result of `merge`: either the in-memory kernel's value (both
operands in memory, no task graph built), or the partitioned path — the
source then wraps any remaining in-memory operand via `from_pandas`
(outside the sources) and dispatches to `join_indexed_dataframes` or
`hash_join`; the model records that dispatch state with the resolved
arguments. -/
inductive MergeResult (PD : Type) where
  | inmem (x : PD)
  | planned (left right : MOperand PD) (how : How)
      (onArg left_on right_on : KeyArg) (left_index right_index : Bool)
      (suffixes : Nat × Nat) (npartitions : Option Nat)

/-- Source function `merge(left, right, how, on, left_on, right_on, left_index,
right_index, suffixes, npartitions)` from `dask/dataframe/multi.py`, up to
its dispatch decision; the in-memory relational kernel is passed in as
`pdMerge`. -/
def merge {PD : Type} (colsOf : PD → List Nat)
    (pdMerge : PD → PD → How → KeyArg → KeyArg → KeyArg → Bool → Bool
      → Nat × Nat → PD)
    (left right : MOperand PD) (how : How) (onArg left_on right_on : KeyArg)
    (left_index right_index : Bool) (suffixes : Nat × Nat)
    (npartitions : Option Nat) : MergeResult PD :=
  let c1 := !truthy onArg && !truthy left_on && !truthy right_on
              && !left_index && !right_index
  let common := (MOperand.columns colsOf left).filter
                  (fun c => c ∈ MOperand.columns colsOf right)
  let on1 := if c1 then some common else onArg
  let left_index1 := if c1 && common.isEmpty then true else left_index
  let right_index1 := if c1 && common.isEmpty then true else right_index
  let c2 := truthy on1 && !truthy left_on && !truthy right_on
  let on2 := if c2 then none else on1
  let left_on2 := if c2 then on1 else left_on
  let right_on2 := if c2 then on1 else right_on
  match left, right with
  | .pd l, .pd r =>
      .inmem (pdMerge l r how on2 left_on2 right_on2 left_index1 right_index1
        suffixes)
  | _, _ =>
      .planned left right how on2 left_on2 right_on2 left_index1 right_index1
        suffixes npartitions

/-- C10: when both operands of `merge` are in-memory frames, `merge`
returns the relational kernel's merge of the two operands directly — with
the resolved `how`/`on`/`left_on`/`right_on`/`left_index`/`right_index`/
`suffixes` arguments — and builds no task graph and no partitioned
table. -/
theorem merge_inmem_direct {PD : Type} (colsOf : PD → List Nat)
    (pdMerge : PD → PD → How → KeyArg → KeyArg → KeyArg → Bool → Bool
      → Nat × Nat → PD)
    (l r : PD) (how : How) (onArg left_on right_on : KeyArg)
    (left_index right_index : Bool) (suffixes : Nat × Nat)
    (npartitions : Option Nat) :
    merge colsOf pdMerge (.pd l) (.pd r) how onArg left_on right_on left_index
        right_index suffixes npartitions
      = MergeResult.inmem (pdMerge l r how
          (if truthy (if !truthy onArg && !truthy left_on && !truthy right_on
                && !left_index && !right_index
              then some ((colsOf l).filter (fun c => c ∈ colsOf r)) else onArg)
              && !truthy left_on && !truthy right_on
           then none
           else if !truthy onArg && !truthy left_on && !truthy right_on
                && !left_index && !right_index
              then some ((colsOf l).filter (fun c => c ∈ colsOf r)) else onArg)
          (if truthy (if !truthy onArg && !truthy left_on && !truthy right_on
                && !left_index && !right_index
              then some ((colsOf l).filter (fun c => c ∈ colsOf r)) else onArg)
              && !truthy left_on && !truthy right_on
           then if !truthy onArg && !truthy left_on && !truthy right_on
                && !left_index && !right_index
              then some ((colsOf l).filter (fun c => c ∈ colsOf r)) else onArg
           else left_on)
          (if truthy (if !truthy onArg && !truthy left_on && !truthy right_on
                && !left_index && !right_index
              then some ((colsOf l).filter (fun c => c ∈ colsOf r)) else onArg)
              && !truthy left_on && !truthy right_on
           then if !truthy onArg && !truthy left_on && !truthy right_on
                && !left_index && !right_index
              then some ((colsOf l).filter (fun c => c ∈ colsOf r)) else onArg
           else right_on)
          (if (!truthy onArg && !truthy left_on && !truthy right_on
                && !left_index && !right_index)
              && ((colsOf l).filter (fun c => c ∈ colsOf r)).isEmpty
           then true else left_index)
          (if (!truthy onArg && !truthy left_on && !truthy right_on
                && !left_index && !right_index)
              && ((colsOf l).filter (fun c => c ∈ colsOf r)).isEmpty
           then true else right_index)
          suffixes) := rfl

end DaskMulti
